import Mathlib

/-!
Shallow embedding of the `rss-feed-collector` repository
(`src/rss_feed_collector.py` and `src/clean_feeds.py`) and verification of
its specification claims.

Modelling conventions:
* Instants (Python `datetime` / `time.time` values) are `Nat` (seconds since
  the epoch; the epoch `datetime(1970, 1, 1)` is `0`).  Serializing an
  instant with `datetime.isoformat` and re-parsing it with
  `dateutil.parser.parse` (an external collaborator) is value-preserving, so
  the persisted watermark map stores instants directly.
* The wall clock is a stream `clock : Nat → Nat`: the n-th call to
  `datetime.now()` / `time.time()` in program order returns `clock n`.  Every
  function that reads the clock takes the next query index `k` and returns
  the updated index, mirroring the call sites in the Python source.
* External collaborators are oracles: `fetchResult url` is `none` when
  `fetch_feed` exhausts its retries (or `feedparser` reports a fatal syntax
  error) and `some rawEntries` otherwise; `parseDate s` is the result of
  `dateutil.parser.parse(s, tzinfos=...)` normalized to a naive UTC instant,
  `none` when parsing raises `ValueError`/`TypeError`; `H` is the
  `hashlib.md5(...).hexdigest()` digest function.
* File-system writes are modelled by returning the written data.
-/

/-- Association lookup on a string-keyed list, mirroring Python `dict.get`
(first binding wins, as in the JSON state object). -/
def lookupStr (u : String) : List (String × Nat) → Option Nat
  | [] => none
  | (v, t) :: rest => if v = u then some t else lookupStr u rest

/-- Rendering of a naive UTC instant by `datetime.isoformat`, modelled as an
injective encoding of the abstract instant. -/
def isoformat (t : Nat) : String := "1970-01-01T00:00:" ++ toString t

/-- Host extraction of `urlparse(url).netloc`: the text after the first
`"//"` up to the next `"/"` (empty when the URL has no `"//"`). -/
def netlocChars : List Char → List Char
  | [] => []
  | '/' :: '/' :: rest => rest.takeWhile (fun c => c ≠ '/')
  | _ :: rest => netlocChars rest

/-- String wrapper for `netlocChars`. -/
def netloc (url : String) : String := String.mk (netlocChars url.data)

/-- Python `str.replace('.', '_')` on a domain label. -/
def underscoreDots (s : String) : String :=
  String.mk (s.data.map (fun c => if c = '.' then '_' else c))

/-- Raw feed entry as delivered by `feedparser` (an untyped bag of optional
fields; `entry.get(key, default)` is `Option.getD`). -/
structure RawEntry where
  title : Option String
  link : Option String
  published : Option String
  updated : Option String
  summary : Option String
deriving Repr, DecidableEq

/-- Normalized entry dict built in `parse_feed` (lines 186–193). -/
structure ParsedEntry where
  title : String
  link : String
  published : String
  summary : String
  source : String
  fetched_at : String
deriving Repr, DecidableEq

/-- Line 174: `entry.get('published', entry.get('updated', ''))`. -/
def pubStrOf (r : RawEntry) : String := r.published.getD (r.updated.getD "")

/-- Lines 175–181: normalize a date string.  Empty string or a parse failure
substitutes the current instant (one clock query); a successful parse uses
the parsed instant (no clock query).  Returns the instant and the next clock
index. -/
def normalizeDate (parseDate : String → Option Nat) (clock : Nat → Nat)
    (s : String) (k : Nat) : Nat × Nat :=
  if s = "" then (clock k, k + 1)
  else
    match parseDate s with
    | some t => (t, k)
    | none => (clock k, k + 1)

/-- Lines 107–123, `generate_entry_hash`: digest of the concatenation of the
entry dict's `title`, `link`, `published` and `summary` values, where `H` is
the external `hashlib.md5(...).hexdigest()`. -/
def generate_entry_hash (H : String → String) (e : ParsedEntry) : String :=
  H (e.title ++ e.link ++ e.published ++ e.summary)

/-- Loop body of `parse_feed` (lines 173–198) for one raw entry: normalize
the date, drop the entry when its instant is `≤` the watermark, otherwise
build the `ParsedEntry` (reading the clock once more for `fetched_at`) and
keep it unless its hash is already in `seen`.  State is
`(seen, next clock index, kept entries so far)`. -/
def processEntry (H : String → String) (parseDate : String → Option Nat)
    (clock : Nat → Nat) (url : String) (watermark : Nat) (r : RawEntry)
    (seen : List String) (k : Nat) (acc : List ParsedEntry) :
    List String × Nat × List ParsedEntry :=
  let s := pubStrOf r
  let p := normalizeDate parseDate clock s k
  if p.1 ≤ watermark then (seen, p.2, acc)
  else
    let fetchedAt := clock p.2
    let pe : ParsedEntry :=
      { title := r.title.getD "", link := r.link.getD "",
        published := isoformat p.1, summary := r.summary.getD "",
        source := netloc url, fetched_at := isoformat fetchedAt }
    let h := generate_entry_hash H pe
    if h ∈ seen then (seen, p.2 + 1, acc)
    else (h :: seen, p.2 + 1, acc ++ [pe])

/-- The `for entry in feed.entries` loop of `parse_feed`. -/
def processEntries (H : String → String) (parseDate : String → Option Nat)
    (clock : Nat → Nat) (url : String) (watermark : Nat) :
    List RawEntry → List String → Nat → List ParsedEntry →
    List String × Nat × List ParsedEntry
  | [], seen, k, acc => (seen, k, acc)
  | r :: rs, seen, k, acc =>
    let st := processEntry H parseDate clock url watermark r seen k acc
    processEntries H parseDate clock url watermark rs st.1 st.2.1 st.2.2

/-- Lines 143–208, `parse_feed`: a failed fetch (retries exhausted) or a
fatal parse error yields zero entries; otherwise the entry loop runs with
the source's loaded watermark `last_fetch_times.get(url, epoch)`.  Returns
`(kept entries, seen hashes, next clock index)`. -/
def parse_feed (H : String → String) (parseDate : String → Option Nat)
    (clock : Nat → Nat) (fetchResult : String → Option (List RawEntry))
    (lastFetchTimes : List (String × Nat)) (url : String)
    (seen : List String) (k : Nat) :
    List ParsedEntry × List String × Nat :=
  match fetchResult url with
  | none => ([], seen, k)
  | some rs =>
    let watermark := (lookupStr url lastFetchTimes).getD 0
    let st := processEntries H parseDate clock url watermark rs seen k []
    (st.2.2, st.1, st.2.1)

/-- Lines 210–216, `collect_all_feeds`: process every configured URL in
order, threading the shared `seen_hashes` set and the clock; the result maps
each URL to its kept entries. -/
def collect_all_feeds (H : String → String) (parseDate : String → Option Nat)
    (clock : Nat → Nat) (fetchResult : String → Option (List RawEntry))
    (lastFetchTimes : List (String × Nat)) :
    List String → List String → Nat →
    List (String × List ParsedEntry) × List String × Nat
  | [], seen, k => ([], seen, k)
  | url :: urls, seen, k =>
    let p := parse_feed H parseDate clock fetchResult lastFetchTimes url seen k
    let rest := collect_all_feeds H parseDate clock fetchResult lastFetchTimes
      urls p.2.1 p.2.2
    ((url, p.1) :: rest.1, rest.2.1, rest.2.2)

/-- Lines 67–93, `load_last_fetch_times`: with a readable state object every
URL gets `state.get(url, epoch)`; a missing or unreadable state file
(`state = none`) defaults every URL to the epoch. -/
def load_last_fetch_times (state : Option (List (String × Nat)))
    (urls : List String) : List (String × Nat) :=
  match state with
  | some st => urls.map (fun u => (u, (lookupStr u st).getD 0))
  | none => urls.map (fun u => (u, 0))

/-- Lines 95–105, `save_state`: the dict comprehension
`{url: datetime.now(timezone.utc).isoformat() for url in self.feed_urls}`
reads the clock once per URL, in list order.  Returns the persisted map and
the next clock index. -/
def save_state (clock : Nat → Nat) :
    List String → Nat → List (String × Nat) × Nat
  | [], k => ([], k)
  | u :: us, k =>
    let rest := save_state clock us (k + 1)
    ((u, clock k) :: rest.1, rest.2)

/-- Hex digit character for a value below 16, lowercase as produced by
Python's `json` module for `\uXXXX` escapes. -/
def hexDigitChar (n : Nat) : Char :=
  if n < 10 then Char.ofNat ('0'.toNat + n) else Char.ofNat ('a'.toNat + (n - 10))

/-- Two-digit lowercase hex rendering of a value below 256. -/
def toHex2 (n : Nat) : List Char := [hexDigitChar (n / 16), hexDigitChar (n % 16)]

/-- JSON string escaping as performed by `json.dump(..., ensure_ascii=False)`:
`"` and `\` are backslash-escaped, the control characters with shorthand
escapes use them, remaining control characters below `0x20` become
`\u00XX`, and every other character is emitted verbatim. -/
def escapeChar (c : Char) : List Char :=
  if c = '"' then ['\\', '"']
  else if c = '\\' then ['\\', '\\']
  else if c = '\n' then ['\\', 'n']
  else if c = '\r' then ['\\', 'r']
  else if c = '\t' then ['\\', 't']
  else if c = '\x08' then ['\\', 'b']
  else if c = '\x0c' then ['\\', 'f']
  else if c.toNat < 32 then ['\\', 'u', '0', '0'] ++ toHex2 c.toNat
  else [c]

/-- Escape every character of a string body. -/
def escapeList : List Char → List Char
  | [] => []
  | c :: rest => escapeChar c ++ escapeList rest

/-- A JSON string literal: quote, escaped body, quote. -/
def quoteStr (s : String) : List Char := '"' :: (escapeList s.data ++ ['"'])

/-- One serialized entry as written by `json.dump(entry, f, ensure_ascii=False)`:
a single-line JSON object with the six keys in insertion order and Python's
default separators. -/
def jsonDump (e : ParsedEntry) : List Char :=
  ("\x7b\"title\": ").data ++ quoteStr e.title ++
  (", \"link\": ").data ++ quoteStr e.link ++
  (", \"published\": ").data ++ quoteStr e.published ++
  (", \"summary\": ").data ++ quoteStr e.summary ++
  (", \"source\": ").data ++ quoteStr e.source ++
  (", \"fetched_at\": ").data ++ quoteStr e.fetched_at ++ ['\x7d']

/-- Lines 237–243: the write loop joins serialized entries with `",\n"` and
terminates the final entry with `"\n"`. -/
def dumpEntries : List ParsedEntry → List Char
  | [] => []
  | [e] => jsonDump e ++ ['\n']
  | e :: e2 :: rest => jsonDump e ++ [',', '\n'] ++ dumpEntries (e2 :: rest)

/-- Line 233–235: output file name `<domain-with-dots-as-underscores>_<ts>.json`
(`toString ts` abstracts the minute-granularity `strftime` format). -/
def fileNameFor (url : String) (ts : Nat) : String :=
  underscoreDots (netloc url) ++ "_" ++ toString ts ++ ".json"

/-- Lines 221–248, `save_to_json`: sources with no kept entries are skipped;
each remaining source reads the clock once for its file-name timestamp and
writes its serialized entries.  Each produced file is recorded as
`(source url, file name, contents)`. -/
def save_to_json (clock : Nat → Nat) :
    List (String × List ParsedEntry) → Nat →
    List (String × String × List Char) × Nat
  | [], k => ([], k)
  | (url, es) :: rest, k =>
    if es.isEmpty then save_to_json clock rest k
    else
      let ts := clock k
      let r := save_to_json clock rest (k + 1)
      ((url, fileNameFor url ts, dumpEntries es) :: r.1, r.2)

/-- Result of one end-to-end `run`. -/
structure RunResult where
  startTime : Nat
  feeds : List (String × List ParsedEntry)
  files : List (String × String × List Char)
  savedState : List (String × Nat)
  endK : Nat
deriving Repr

/-- Lines 250–262, `run`, together with the state loading done in
`__init__`: read the start time, collect all feeds (with a fresh empty
`seen_hashes` set), write the output files, then save the state. -/
def run (H : String → String) (parseDate : String → Option Nat)
    (clock : Nat → Nat) (fetchResult : String → Option (List RawEntry))
    (urls : List String) (initState : Option (List (String × Nat)))
    (k0 : Nat) : RunResult :=
  let lastFetch := load_last_fetch_times initState urls
  let c := collect_all_feeds H parseDate clock fetchResult lastFetch urls [] (k0 + 1)
  let f := save_to_json clock c.1 c.2.2
  let st := save_state clock urls f.2
  { startTime := clock k0, feeds := c.1, files := f.1,
    savedState := st.1, endK := st.2 }

/-- Directory entry seen by `clean_feeds.py`. -/
structure FileInfo where
  name : String
  isFile : Bool
  mtime : Int
deriving Repr, DecidableEq

/-- The configured age threshold of `clean_feeds.py`, line 7. -/
def DAYS_OLD : Int := 0

/-- Line 11 of `clean_feeds.py`: `cutoff = now - (days_old * 86400)`. -/
def cutoffOf (now daysOld : Int) : Int := now - daysOld * 86400

/-- Lines 9–28 of `clean_feeds.py`, `clean_old_files`: every regular file
whose modification time is strictly below the cutoff has `os.remove`
attempted on it (failures are caught and logged); the result lists the
names of the files whose deletion is attempted. -/
def clean_old_files (now daysOld : Int) (files : List FileInfo) : List String :=
  (files.filter (fun f => f.isFile && decide (f.mtime < cutoffOf now daysOld))).map
    (fun f => f.name)

/-- Value of a lowercase hex digit character, if it is one. -/
def hexVal? (c : Char) : Option Nat :=
  if '0' ≤ c ∧ c ≤ '9' then some (c.toNat - '0'.toNat)
  else if 'a' ≤ c ∧ c ≤ 'f' then some (c.toNat - 'a'.toNat + 10)
  else none

/-- Prepend a character to the string part of an in-progress parse. -/
def consRes (c : Char) (r : Option (List Char × List Char)) :
    Option (List Char × List Char) :=
  r.map (fun p => (c :: p.1, p.2))

/-- Read a JSON string body up to its closing quote, undoing the escapes of
`escapeChar`; returns the decoded body and the remaining input. -/
def unescapeBody : List Char → Option (List Char × List Char)
  | [] => none
  | c :: rest =>
    if c = '"' then some ([], rest)
    else if c = '\\' then
      match rest with
      | [] => none
      | d :: rest2 =>
        if d = '"' then consRes '"' (unescapeBody rest2)
        else if d = '\\' then consRes '\\' (unescapeBody rest2)
        else if d = 'n' then consRes '\n' (unescapeBody rest2)
        else if d = 'r' then consRes '\r' (unescapeBody rest2)
        else if d = 't' then consRes '\t' (unescapeBody rest2)
        else if d = 'b' then consRes '\x08' (unescapeBody rest2)
        else if d = 'f' then consRes '\x0c' (unescapeBody rest2)
        else if d = 'u' then
          match rest2 with
          | h1 :: h2 :: h3 :: h4 :: rest3 =>
            match hexVal? h1, hexVal? h2, hexVal? h3, hexVal? h4 with
            | some a, some b, some c2, some d2 =>
              consRes (Char.ofNat (((a * 16 + b) * 16 + c2) * 16 + d2))
                (unescapeBody rest3)
            | _, _, _, _ => none
          | _ => none
        else none
    else consRes c (unescapeBody rest)

/-- Parse one JSON string literal (opening quote, escaped body, closing
quote); returns the decoded string and the remaining input. -/
def parseQuoted (l : List Char) : Option (String × List Char) :=
  match l with
  | '"' :: rest => (unescapeBody rest).map (fun p => (String.mk p.1, p.2))
  | _ => none

/-- Consume an expected literal prefix, returning the remaining input. -/
def dropLit : List Char → List Char → Option (List Char)
  | [], rest => some rest
  | _ :: _, [] => none
  | c :: cs, d :: rest => if c = d then dropLit cs rest else none

/-- Parse one segment of an output file as a standalone JSON object of the
exact shape `json.dump` produces for a `ParsedEntry`. -/
def parseEntryJson (l : List Char) : Option ParsedEntry := do
  let l ← dropLit ("\x7b\"title\": ").data l
  let (title, l) ← parseQuoted l
  let l ← dropLit (", \"link\": ").data l
  let (link, l) ← parseQuoted l
  let l ← dropLit (", \"published\": ").data l
  let (published, l) ← parseQuoted l
  let l ← dropLit (", \"summary\": ").data l
  let (summary, l) ← parseQuoted l
  let l ← dropLit (", \"source\": ").data l
  let (source, l) ← parseQuoted l
  let l ← dropLit (", \"fetched_at\": ").data l
  let (fetchedAt, l) ← parseQuoted l
  let l ← dropLit ['\x7d'] l
  if l = [] then
    some { title := title, link := link, published := published,
           summary := summary, source := source, fetched_at := fetchedAt }
  else none

/-- Split a character list on every occurrence of the two-character
boundary `",\n"`, scanning left to right. -/
def splitCommaNl : List Char → List (List Char)
  | [] => [[]]
  | [c] => [[c]]
  | c :: d :: rest =>
    if c = ',' ∧ d = '\n' then [] :: splitCommaNl rest
    else
      match splitCommaNl (d :: rest) with
      | [] => [[c]]
      | s :: ss => (c :: s) :: ss

/-- Strip one trailing newline, when present. -/
def stripFinalNewline (l : List Char) : List Char :=
  if l.getLast? = some '\n' then l.dropLast else l

/-- Join chunks with the `",\n"` boundary (no terminator). -/
def joinCommaNl : List (List Char) → List Char
  | [] => []
  | [ch] => ch
  | ch :: ch2 :: rest => ch ++ ',' :: '\n' :: joinCommaNl (ch2 :: rest)

theorem stringDataInj {s t : String} (h : s.data = t.data) : s = t := by
  cases s; cases t; exact congrArg String.mk h

theorem mk_data (s : String) : String.mk s.data = s := by
  cases s; rfl

theorem hexVal?_hexDigitChar : ∀ m, m < 16 → hexVal? (hexDigitChar m) = some m := by
  decide

theorem hexDigitChar_ne_nl : ∀ m, m < 16 → hexDigitChar m ≠ '\n' := by
  decide

theorem unescapeBody_cons_plain (c : Char) (l : List Char)
    (h1 : c ≠ '"') (h2 : c ≠ '\\') :
    unescapeBody (c :: l) = consRes c (unescapeBody l) := by
  rw [unescapeBody.eq_def]
  simp [h1, h2]

theorem unescapeBody_escapeList (s : List Char) (rest : List Char) :
    unescapeBody (escapeList s ++ ('"' :: rest)) = some (s, rest) := by
  induction s with
  | nil =>
    rw [escapeList, List.nil_append, unescapeBody.eq_def]
    simp
  | cons c cs ih =>
    rw [escapeList, List.append_assoc]
    by_cases h1 : c = '"'
    · subst h1
      rw [escapeChar, if_pos rfl, List.cons_append, List.cons_append,
        List.nil_append, unescapeBody.eq_def]
      simp [consRes, ih]
    · by_cases h2 : c = '\\'
      · subst h2
        rw [escapeChar]
        rw [if_neg (by decide), if_pos rfl, List.cons_append, List.cons_append,
          List.nil_append, unescapeBody.eq_def]
        simp [consRes, ih]
      · by_cases h3 : c = '\n'
        · subst h3
          rw [escapeChar]
          rw [if_neg (by decide), if_neg (by decide), if_pos rfl,
            List.cons_append, List.cons_append, List.nil_append,
            unescapeBody.eq_def]
          simp [consRes, ih]
        · by_cases h4 : c = '\r'
          · subst h4
            rw [escapeChar]
            rw [if_neg (by decide), if_neg (by decide), if_neg (by decide),
              if_pos rfl, List.cons_append, List.cons_append, List.nil_append,
              unescapeBody.eq_def]
            simp [consRes, ih]
          · by_cases h5 : c = '\t'
            · subst h5
              rw [escapeChar]
              rw [if_neg (by decide), if_neg (by decide), if_neg (by decide),
                if_neg (by decide), if_pos rfl, List.cons_append,
                List.cons_append, List.nil_append, unescapeBody.eq_def]
              simp [consRes, ih]
            · by_cases h6 : c = '\x08'
              · subst h6
                rw [escapeChar]
                rw [if_neg (by decide), if_neg (by decide), if_neg (by decide),
                  if_neg (by decide), if_neg (by decide), if_pos rfl,
                  List.cons_append, List.cons_append, List.nil_append,
                  unescapeBody.eq_def]
                simp [consRes, ih]
              · by_cases h7 : c = '\x0c'
                · subst h7
                  rw [escapeChar]
                  rw [if_neg (by decide), if_neg (by decide),
                    if_neg (by decide), if_neg (by decide), if_neg (by decide),
                    if_neg (by decide), if_pos rfl, List.cons_append,
                    List.cons_append, List.nil_append, unescapeBody.eq_def]
                  simp [consRes, ih]
                · by_cases h8 : c.toNat < 32
                  · rw [escapeChar, if_neg h1, if_neg h2, if_neg h3, if_neg h4,
                      if_neg h5, if_neg h6, if_neg h7, if_pos h8]
                    have e0 : hexVal? '0' = some 0 := by decide
                    have e1 : hexVal? (hexDigitChar (c.toNat / 16)) =
                        some (c.toNat / 16) :=
                      hexVal?_hexDigitChar _ (by omega)
                    have e2 : hexVal? (hexDigitChar (c.toNat % 16)) =
                        some (c.toNat % 16) :=
                      hexVal?_hexDigitChar _ (by omega)
                    rw [toHex2]
                    simp only [List.cons_append, List.nil_append,
                      List.append_assoc]
                    rw [unescapeBody.eq_def]
                    simp [e0, e1, e2, consRes, ih]
                    have hv : c.toNat / 16 * 16 + c.toNat % 16 = c.toNat := by
                      omega
                    rw [hv, Char.ofNat_toNat]
                  · rw [escapeChar, if_neg h1, if_neg h2, if_neg h3, if_neg h4,
                      if_neg h5, if_neg h6, if_neg h7, if_neg h8,
                      List.cons_append, List.nil_append,
                      unescapeBody_cons_plain c _ h1 h2]
                    simp [consRes, ih]

theorem parseQuoted_quoteStr (s : String) (rest : List Char) :
    parseQuoted (quoteStr s ++ rest) = some (s, rest) := by
  rw [quoteStr, List.cons_append, List.append_assoc, List.singleton_append,
    parseQuoted, unescapeBody_escapeList]
  simp [mk_data]

theorem dropLit_append (p rest : List Char) : dropLit p (p ++ rest) = some rest := by
  induction p with
  | nil => rw [List.nil_append, dropLit]
  | cons c cs ih => rw [List.cons_append, dropLit, if_pos rfl, ih]

theorem dropLit_self (p : List Char) : dropLit p p = some [] := by
  have h := dropLit_append p []
  rwa [List.append_nil] at h

theorem parseEntryJson_jsonDump (e : ParsedEntry) :
    parseEntryJson (jsonDump e) = some e := by
  rw [parseEntryJson, jsonDump]
  simp only [List.append_assoc, dropLit_append, parseQuoted_quoteStr,
    Option.bind_eq_bind, Option.some_bind, dropLit_self]
  simp

theorem splitCommaNl_no_nl (ch : List Char) (h : '\n' ∉ ch) :
    splitCommaNl ch = [ch] := by
  induction ch with
  | nil => rw [splitCommaNl]
  | cons c rest ih =>
    cases rest with
    | nil => rw [splitCommaNl]
    | cons d rest2 =>
      have hd : ¬(c = ',' ∧ d = '\n') := by
        rintro ⟨-, rfl⟩
        exact h (by simp)
      rw [splitCommaNl.eq_def]
      simp only [if_neg hd]
      rw [ih (by intro hm; exact h (List.mem_cons_of_mem c hm))]

theorem splitCommaNl_chunk_append (ch rest : List Char) (h : '\n' ∉ ch) :
    splitCommaNl (ch ++ ',' :: '\n' :: rest) = ch :: splitCommaNl rest := by
  induction ch with
  | nil =>
    rw [List.nil_append, splitCommaNl.eq_def]
    simp
  | cons c ch' ih =>
    cases ch' with
    | nil =>
      rw [List.singleton_append, splitCommaNl.eq_def]
      simp only [List.cons.injEq, reduceCtorEq, and_false, if_neg]
      rw [show splitCommaNl (',' :: '\n' :: rest) = [] :: splitCommaNl rest by
        rw [splitCommaNl.eq_def]; simp]
      simp
    | cons d ch'' =>
      have hd : ¬(c = ',' ∧ d = '\n') := by
        rintro ⟨-, rfl⟩
        exact h (by simp)
      rw [List.cons_append, List.cons_append, splitCommaNl.eq_def]
      simp only [if_neg hd]
      rw [← List.cons_append,
        ih (by intro hm; exact h (List.mem_cons_of_mem c hm))]

theorem splitCommaNl_joinCommaNl (chunks : List (List Char))
    (h : ∀ ch ∈ chunks, '\n' ∉ ch) (hne : chunks ≠ []) :
    splitCommaNl (joinCommaNl chunks) = chunks := by
  induction chunks with
  | nil => exact absurd rfl hne
  | cons ch rest ih =>
    cases rest with
    | nil =>
      rw [joinCommaNl]
      exact splitCommaNl_no_nl ch (h ch (by simp))
    | cons ch2 rest2 =>
      rw [joinCommaNl, splitCommaNl_chunk_append _ _ (h ch (by simp)),
        ih (fun x hx => h x (List.mem_cons_of_mem ch hx)) (by simp)]

theorem dumpEntries_eq (es : List ParsedEntry) (h : es ≠ []) :
    dumpEntries es = joinCommaNl (es.map jsonDump) ++ ['\n'] := by
  induction es with
  | nil => exact absurd rfl h
  | cons e rest ih =>
    cases rest with
    | nil => simp [dumpEntries, joinCommaNl]
    | cons e2 rest2 =>
      rw [dumpEntries, ih (by simp)]
      simp only [List.map_cons]
      rw [show joinCommaNl (jsonDump e :: jsonDump e2 :: List.map jsonDump rest2)
          = jsonDump e ++ ',' :: '\n' ::
            joinCommaNl (jsonDump e2 :: List.map jsonDump rest2) from rfl]
      simp [List.append_assoc]

theorem stripFinalNewline_concat (l : List Char) :
    stripFinalNewline (l ++ ['\n']) = l := by
  rw [stripFinalNewline, if_pos (by rw [List.getLast?_concat]),
    List.dropLast_concat]

theorem noNl_append {a b : List Char} (ha : '\n' ∉ a) (hb : '\n' ∉ b) :
    '\n' ∉ a ++ b := by
  intro hm
  rcases List.mem_append.mp hm with h | h
  · exact ha h
  · exact hb h

theorem noNl_escapeChar (c : Char) : '\n' ∉ escapeChar c := by
  rw [escapeChar]
  split_ifs with h1 h2 h3 h4 h5 h6 h7 h8
  · decide
  · decide
  · decide
  · decide
  · decide
  · decide
  · decide
  · rw [toHex2]
    have b1 : hexDigitChar (c.toNat / 16) ≠ '\n' :=
      hexDigitChar_ne_nl _ (by omega)
    have b2 : hexDigitChar (c.toNat % 16) ≠ '\n' :=
      hexDigitChar_ne_nl _ (by omega)
    intro hm
    rcases List.mem_cons.mp hm with hm | hm
    · exact absurd hm (by decide)
    · rcases List.mem_cons.mp hm with hm | hm
      · exact absurd hm (by decide)
      · rcases List.mem_cons.mp hm with hm | hm
        · exact absurd hm (by decide)
        · rcases List.mem_cons.mp hm with hm | hm
          · exact absurd hm (by decide)
          · rcases List.mem_cons.mp hm with hm | hm
            · exact b1 hm.symm
            · rcases List.mem_cons.mp hm with hm | hm
              · exact b2 hm.symm
              · exact absurd hm (List.not_mem_nil _)
  · intro hm
    rcases List.mem_cons.mp hm with hm | hm
    · exact h3 hm.symm
    · exact absurd hm (List.not_mem_nil _)

theorem noNl_escapeList (s : List Char) : '\n' ∉ escapeList s := by
  induction s with
  | nil => simp [escapeList]
  | cons c cs ih =>
    rw [escapeList]
    exact noNl_append (noNl_escapeChar c) ih

theorem noNl_quoteStr (s : String) : '\n' ∉ quoteStr s := by
  rw [quoteStr]
  intro hm
  rcases List.mem_cons.mp hm with hm | hm
  · exact absurd hm (by decide)
  · rcases List.mem_append.mp hm with hm | hm
    · exact noNl_escapeList _ hm
    · simp at hm

theorem noNl_jsonDump (e : ParsedEntry) : '\n' ∉ jsonDump e := by
  rw [jsonDump]
  simp only [List.append_assoc]
  refine noNl_append (by decide) ?_
  refine noNl_append (noNl_quoteStr _) ?_
  refine noNl_append (by decide) ?_
  refine noNl_append (noNl_quoteStr _) ?_
  refine noNl_append (by decide) ?_
  refine noNl_append (noNl_quoteStr _) ?_
  refine noNl_append (by decide) ?_
  refine noNl_append (noNl_quoteStr _) ?_
  refine noNl_append (by decide) ?_
  refine noNl_append (noNl_quoteStr _) ?_
  refine noNl_append (by decide) ?_
  exact noNl_append (noNl_quoteStr _) (by decide)

theorem roundTrip_dumpEntries (es : List ParsedEntry) (h : es ≠ []) :
    (splitCommaNl (stripFinalNewline (dumpEntries es))).map parseEntryJson =
      es.map some := by
  rw [dumpEntries_eq es h, stripFinalNewline_concat,
    splitCommaNl_joinCommaNl (es.map jsonDump)
      (by
        intro ch hch
        rcases List.mem_map.mp hch with ⟨e, -, rfl⟩
        exact noNl_jsonDump e)
      (by simpa using h),
    List.map_map]
  exact List.map_congr_left (fun e _ => parseEntryJson_jsonDump e)

theorem normalizeDate_k (pd : String → Option Nat) (clock : Nat → Nat)
    (s : String) (k : Nat) :
    ((s = "" ∨ pd s = none) ∧ (normalizeDate pd clock s k).1 = clock k ∧
      (normalizeDate pd clock s k).2 = k + 1) ∨
    (s ≠ "" ∧ pd s = some ((normalizeDate pd clock s k).1) ∧
      (normalizeDate pd clock s k).2 = k) := by
  rw [normalizeDate]
  by_cases hs : s = ""
  · rw [if_pos hs]
    exact Or.inl ⟨Or.inl hs, rfl, rfl⟩
  · rw [if_neg hs]
    cases hp : pd s with
    | none => exact Or.inl ⟨Or.inr rfl, rfl, rfl⟩
    | some t0 => exact Or.inr ⟨hs, rfl, rfl⟩

theorem processEntry_k_le (H : String → String) (pd : String → Option Nat)
    (clock : Nat → Nat) (url : String) (wm : Nat) (r : RawEntry)
    (seen : List String) (k : Nat) (acc : List ParsedEntry) :
    k ≤ (processEntry H pd clock url wm r seen k acc).2.1 := by
  have hnd := normalizeDate_k pd clock (pubStrOf r) k
  simp only [processEntry]
  split_ifs <;> rcases hnd with ⟨-, -, h⟩ | ⟨-, -, h⟩ <;> simp <;> omega

theorem processEntries_k_le (H : String → String) (pd : String → Option Nat)
    (clock : Nat → Nat) (url : String) (wm : Nat) (rs : List RawEntry) :
    ∀ seen k acc,
      k ≤ (processEntries H pd clock url wm rs seen k acc).2.1 := by
  induction rs with
  | nil => intro seen k acc; simp [processEntries]
  | cons r rs ih =>
    intro seen k acc
    rw [processEntries]
    exact le_trans (processEntry_k_le H pd clock url wm r seen k acc)
      (ih _ _ _)

theorem parse_feed_k_le (H : String → String) (pd : String → Option Nat)
    (clock : Nat → Nat) (fetchResult : String → Option (List RawEntry))
    (lf : List (String × Nat)) (url : String) (seen : List String) (k : Nat) :
    k ≤ (parse_feed H pd clock fetchResult lf url seen k).2.2 := by
  rw [parse_feed]
  cases fetchResult url with
  | none => simp
  | some rs => simpa using processEntries_k_le H pd clock url _ rs seen k []

theorem collect_k_le (H : String → String) (pd : String → Option Nat)
    (clock : Nat → Nat) (fetchResult : String → Option (List RawEntry))
    (lf : List (String × Nat)) (urls : List String) :
    ∀ seen k,
      k ≤ (collect_all_feeds H pd clock fetchResult lf urls seen k).2.2 := by
  induction urls with
  | nil => intro seen k; simp [collect_all_feeds]
  | cons url urls ih =>
    intro seen k
    rw [collect_all_feeds]
    exact le_trans (parse_feed_k_le H pd clock fetchResult lf url seen k)
      (ih _ _)

theorem save_to_json_k_le (clock : Nat → Nat)
    (feeds : List (String × List ParsedEntry)) :
    ∀ k, k ≤ (save_to_json clock feeds k).2 := by
  induction feeds with
  | nil => intro k; simp [save_to_json]
  | cons p rest ih =>
    intro k
    rw [save_to_json]
    split_ifs
    · exact ih k
    · exact le_trans (Nat.le_succ k) (ih (k + 1))

theorem processEntry_mem_cases (H : String → String) (pd : String → Option Nat)
    (clock : Nat → Nat) (url : String) (wm : Nat) (r : RawEntry)
    (seen : List String) (k : Nat) (acc : List ParsedEntry) (pe : ParsedEntry)
    (hpe : pe ∈ (processEntry H pd clock url wm r seen k acc).2.2) :
    pe ∈ acc ∨
      ∃ t, wm < t ∧ pe.published = isoformat t ∧
        (t = clock k ∧ k < (processEntry H pd clock url wm r seen k acc).2.1 ∨
          pubStrOf r ≠ "" ∧ pd (pubStrOf r) = some t) := by
  have hnd := normalizeDate_k pd clock (pubStrOf r) k
  simp only [processEntry] at hpe ⊢
  split_ifs at hpe ⊢ with h1 h2
  · exact Or.inl hpe
  · exact Or.inl hpe
  · rcases List.mem_append.mp hpe with h | h
    · exact Or.inl h
    · have hpe' := List.mem_singleton.mp h
      subst hpe'
      refine Or.inr ⟨(normalizeDate pd clock (pubStrOf r) k).1,
        Nat.lt_of_not_le (fun hle => h1 hle), rfl, ?_⟩
      rcases hnd with ⟨-, hclk, hk2⟩ | ⟨hs, hpd, -⟩
      · exact Or.inl ⟨hclk, by simp; omega⟩
      · exact Or.inr ⟨hs, hpd⟩

theorem processEntries_mem (H : String → String) (pd : String → Option Nat)
    (clock : Nat → Nat) (url : String) (wm : Nat) (rs : List RawEntry) :
    ∀ seen k acc pe,
      pe ∈ (processEntries H pd clock url wm rs seen k acc).2.2 →
      pe ∈ acc ∨
        ∃ t, wm < t ∧ pe.published = isoformat t ∧
          ((∃ j, k ≤ j ∧
              j < (processEntries H pd clock url wm rs seen k acc).2.1 ∧
              t = clock j) ∨
            ∃ r, r ∈ rs ∧ pubStrOf r ≠ "" ∧ pd (pubStrOf r) = some t) := by
  induction rs with
  | nil =>
    intro seen k acc pe hpe
    exact Or.inl hpe
  | cons r rs ih =>
    intro seen k acc pe hpe
    rw [processEntries] at hpe ⊢
    rcases ih _ _ _ pe hpe with hacc | ⟨t, hwm, hpub, hsrc⟩
    · rcases processEntry_mem_cases H pd clock url wm r seen k acc pe hacc with
        h | ⟨t, hwm, hpub, hsrc⟩
      · exact Or.inl h
      · refine Or.inr ⟨t, hwm, hpub, ?_⟩
        rcases hsrc with ⟨hclk, hlt⟩ | ⟨hs, hpd⟩
        · refine Or.inl ⟨k, le_refl k, ?_, hclk⟩
          exact lt_of_lt_of_le hlt (processEntries_k_le H pd clock url wm rs _ _ _)
        · exact Or.inr ⟨r, List.mem_cons_self r rs, hs, hpd⟩
    · refine Or.inr ⟨t, hwm, hpub, ?_⟩
      rcases hsrc with ⟨j, hkj, hjlt, hclk⟩ | ⟨r', hr', hs, hpd⟩
      · exact Or.inl ⟨j,
          le_trans (processEntry_k_le H pd clock url wm r seen k acc) hkj,
          hjlt, hclk⟩
      · exact Or.inr ⟨r', List.mem_cons_of_mem r hr', hs, hpd⟩

theorem parse_feed_mem_rich (H : String → String) (pd : String → Option Nat)
    (clock : Nat → Nat) (fetch : String → Option (List RawEntry))
    (lf : List (String × Nat)) (url : String) (seen : List String) (k : Nat)
    (rs : List RawEntry) (hf : fetch url = some rs) (pe : ParsedEntry)
    (hpe : pe ∈ (parse_feed H pd clock fetch lf url seen k).1) :
    ∃ t, (lookupStr url lf).getD 0 < t ∧ pe.published = isoformat t ∧
      ((∃ j, k ≤ j ∧ j < (parse_feed H pd clock fetch lf url seen k).2.2 ∧
          t = clock j) ∨
        ∃ r, r ∈ rs ∧ pubStrOf r ≠ "" ∧ pd (pubStrOf r) = some t) := by
  rw [parse_feed] at hpe ⊢
  rw [hf] at hpe ⊢
  rcases processEntries_mem H pd clock url _ rs seen k [] pe hpe with h | h
  · exact absurd h (List.not_mem_nil pe)
  · exact h

theorem parse_feed_mem (H : String → String) (pd : String → Option Nat)
    (clock : Nat → Nat) (fetch : String → Option (List RawEntry))
    (lf : List (String × Nat)) (url : String) (seen : List String) (k : Nat)
    (pe : ParsedEntry)
    (hpe : pe ∈ (parse_feed H pd clock fetch lf url seen k).1) :
    ∃ t, (lookupStr url lf).getD 0 < t ∧ pe.published = isoformat t := by
  cases hf : fetch url with
  | none =>
    rw [parse_feed, hf] at hpe
    exact absurd hpe (List.not_mem_nil pe)
  | some rs =>
    rcases parse_feed_mem_rich H pd clock fetch lf url seen k rs hf pe hpe
      with ⟨t, hwm, hpub, -⟩
    exact ⟨t, hwm, hpub⟩

theorem collect_mem (H : String → String) (pd : String → Option Nat)
    (clock : Nat → Nat) (fetch : String → Option (List RawEntry))
    (lf : List (String × Nat)) (urls : List String) :
    ∀ seen k url es pe,
      (url, es) ∈ (collect_all_feeds H pd clock fetch lf urls seen k).1 →
      pe ∈ es →
      ∃ t, (lookupStr url lf).getD 0 < t ∧ pe.published = isoformat t := by
  induction urls with
  | nil =>
    intro seen k url es pe hm
    rw [collect_all_feeds] at hm
    exact absurd hm (List.not_mem_nil _)
  | cons u0 urls ih =>
    intro seen k url es pe hm hpe
    rw [collect_all_feeds] at hm
    rcases List.mem_cons.mp hm with hm | hm
    · obtain ⟨h1, h2⟩ := Prod.mk.injEq .. ▸ hm
      subst h1
      subst h2
      exact parse_feed_mem H pd clock fetch lf url seen k pe hpe
    · exact ih _ _ url es pe hm hpe

theorem collect_covers (H : String → String) (pd : String → Option Nat)
    (clock : Nat → Nat) (fetch : String → Option (List RawEntry))
    (lf : List (String × Nat)) (urls : List String) :
    ∀ seen k url, url ∈ urls →
      ∃ es, (url, es) ∈ (collect_all_feeds H pd clock fetch lf urls seen k).1 := by
  induction urls with
  | nil => intro seen k url hu; exact absurd hu (List.not_mem_nil url)
  | cons u0 urls ih =>
    intro seen k url hu
    rw [collect_all_feeds]
    rcases List.mem_cons.mp hu with rfl | hu
    · exact ⟨(parse_feed H pd clock fetch lf url seen k).1, List.mem_cons_self _ _⟩
    · obtain ⟨es, hes⟩ := ih _ _ url hu
      exact ⟨es, List.mem_cons_of_mem _ hes⟩

theorem collect_failed (H : String → String) (pd : String → Option Nat)
    (clock : Nat → Nat) (fetch : String → Option (List RawEntry))
    (lf : List (String × Nat)) (urls : List String) :
    ∀ seen k url es,
      (url, es) ∈ (collect_all_feeds H pd clock fetch lf urls seen k).1 →
      fetch url = none → es = [] := by
  induction urls with
  | nil =>
    intro seen k url es hm
    rw [collect_all_feeds] at hm
    exact absurd hm (List.not_mem_nil _)
  | cons u0 urls ih =>
    intro seen k url es hm hf
    rw [collect_all_feeds] at hm
    rcases List.mem_cons.mp hm with hm | hm
    · obtain ⟨h1, h2⟩ := Prod.mk.injEq .. ▸ hm
      subst h1
      subst h2
      rw [parse_feed, hf]
    · exact ih _ _ url es hm hf

theorem save_to_json_mem (clock : Nat → Nat)
    (feeds : List (String × List ParsedEntry)) :
    ∀ k url fn c, (url, fn, c) ∈ (save_to_json clock feeds k).1 →
      ∃ es, (url, es) ∈ feeds ∧ es ≠ [] ∧ c = dumpEntries es := by
  induction feeds with
  | nil =>
    intro k url fn c hm
    rw [save_to_json] at hm
    exact absurd hm (List.not_mem_nil _)
  | cons p rest ih =>
    obtain ⟨u0, es0⟩ := p
    intro k url fn c hm
    rw [save_to_json] at hm
    by_cases he : es0.isEmpty
    · rw [if_pos he] at hm
      obtain ⟨es, h1, h2, h3⟩ := ih _ url fn c hm
      exact ⟨es, List.mem_cons_of_mem _ h1, h2, h3⟩
    · rw [if_neg he] at hm
      rcases List.mem_cons.mp hm with hm | hm
      · simp only [Prod.mk.injEq] at hm
        obtain ⟨h1, -, h3⟩ := hm
        subst h1
        refine ⟨es0, List.mem_cons_self _ _, ?_, h3⟩
        intro hnil
        rw [hnil] at he
        exact he rfl
      · obtain ⟨es, h1, h2, h3⟩ := ih _ url fn c hm
        exact ⟨es, List.mem_cons_of_mem _ h1, h2, h3⟩

theorem save_to_json_covers (clock : Nat → Nat)
    (feeds : List (String × List ParsedEntry)) :
    ∀ k url es, (url, es) ∈ feeds → es ≠ [] →
      ∃ fn c, (url, fn, c) ∈ (save_to_json clock feeds k).1 ∧
        c = dumpEntries es := by
  induction feeds with
  | nil => intro k url es hm; exact absurd hm (List.not_mem_nil _)
  | cons p rest ih =>
    intro k url es hm hne
    rw [save_to_json]
    rcases List.mem_cons.mp hm with hm | hm
    · subst hm
      rw [if_neg (by simpa [List.isEmpty_iff] using hne)]
      exact ⟨fileNameFor url (clock k), dumpEntries es,
        List.mem_cons_self _ _, rfl⟩
    · by_cases he : p.2.isEmpty
      · rw [if_pos he]
        exact ih _ url es hm hne
      · rw [if_neg he]
        obtain ⟨fn, c, h1, h2⟩ := ih (k + 1) url es hm hne
        exact ⟨fn, c, List.mem_cons_of_mem _ h1, h2⟩

theorem save_state_lookup (clock : Nat → Nat) (urls : List String) :
    ∀ k u, u ∈ urls →
      ∃ i, k ≤ i ∧ i < k + urls.length ∧
        lookupStr u (save_state clock urls k).1 = some (clock i) := by
  induction urls with
  | nil => intro k u hu; exact absurd hu (List.not_mem_nil u)
  | cons v us ih =>
    intro k u hu
    rw [save_state]
    by_cases hv : v = u
    · exact ⟨k, le_refl k, by rw [List.length_cons]; omega,
        by rw [lookupStr, if_pos hv]⟩
    · rcases List.mem_cons.mp hu with rfl | hu
      · exact absurd rfl hv
      · obtain ⟨i, hk, hb, hl⟩ := ih (k + 1) u hu
        exact ⟨i, by omega, by rw [List.length_cons]; omega,
          by rw [lookupStr, if_neg hv]; exact hl⟩

theorem lookupStr_map_self (g : String → Nat) (urls : List String) (u : String)
    (hu : u ∈ urls) :
    lookupStr u (urls.map (fun x => (x, g x))) = some (g u) := by
  induction urls with
  | nil => exact absurd hu (List.not_mem_nil u)
  | cons v us ih =>
    rw [List.map_cons, lookupStr]
    by_cases hv : v = u
    · rw [if_pos hv, hv]
    · rcases List.mem_cons.mp hu with rfl | hu
      · exact absurd rfl hv
      · rw [if_neg hv]
        exact ih hu

/-- All entries kept in one run, across all sources, in collection order. -/
def keptAll (feeds : List (String × List ParsedEntry)) : List ParsedEntry :=
  (feeds.map Prod.snd).flatten

theorem keptAll_cons (u : String) (es : List ParsedEntry)
    (r : List (String × List ParsedEntry)) :
    keptAll ((u, es) :: r) = es ++ keptAll r := by
  simp [keptAll]

theorem nodup_snoc_hash (H : String → String) (X : List ParsedEntry)
    (pe : ParsedEntry) (seen : List String)
    (hsub : ∀ q ∈ X, generate_entry_hash H q ∈ seen)
    (hnd : (X.map (generate_entry_hash H)).Nodup)
    (hnew : generate_entry_hash H pe ∉ seen) :
    ((X ++ [pe]).map (generate_entry_hash H)).Nodup := by
  rw [List.map_append]
  rw [List.nodup_append]
  refine ⟨hnd, List.nodup_singleton _, ?_⟩
  intro x hx hx'
  rcases List.mem_map.mp hx with ⟨q, hq, hEq⟩
  rcases List.mem_map.mp hx' with ⟨q', hq', hEq'⟩
  rw [List.mem_singleton.mp hq'] at hEq'
  exact hnew (hEq' ▸ hEq ▸ hsub q hq)

theorem processEntries_nodup_inv (H : String → String)
    (pd : String → Option Nat) (clock : Nat → Nat) (url : String) (wm : Nat)
    (rs : List RawEntry) :
    ∀ seen k acc prev,
      (∀ pe ∈ prev ++ acc, generate_entry_hash H pe ∈ seen) →
      ((prev ++ acc).map (generate_entry_hash H)).Nodup →
      (∀ pe ∈ prev ++ (processEntries H pd clock url wm rs seen k acc).2.2,
          generate_entry_hash H pe ∈
            (processEntries H pd clock url wm rs seen k acc).1) ∧
      ((prev ++ (processEntries H pd clock url wm rs seen k acc).2.2).map
          (generate_entry_hash H)).Nodup ∧
      (∀ x ∈ seen, x ∈ (processEntries H pd clock url wm rs seen k acc).1) := by
  induction rs with
  | nil =>
    intro seen k acc prev hsub hnd
    rw [processEntries]
    exact ⟨hsub, hnd, fun x hx => hx⟩
  | cons r rs ih =>
    intro seen k acc prev hsub hnd
    rw [processEntries]
    have hstep :
        (∀ pe ∈ prev ++ (processEntry H pd clock url wm r seen k acc).2.2,
            generate_entry_hash H pe ∈
              (processEntry H pd clock url wm r seen k acc).1) ∧
        ((prev ++ (processEntry H pd clock url wm r seen k acc).2.2).map
            (generate_entry_hash H)).Nodup ∧
        (∀ x ∈ seen, x ∈ (processEntry H pd clock url wm r seen k acc).1) := by
      simp only [processEntry]
      split_ifs with h1 h2
      · exact ⟨hsub, hnd, fun x hx => hx⟩
      · exact ⟨hsub, hnd, fun x hx => hx⟩
      · refine ⟨?_, ?_, fun x hx => List.mem_cons_of_mem _ hx⟩
        · intro pe hpe
          rw [← List.append_assoc] at hpe
          rcases List.mem_append.mp hpe with h | h
          · exact List.mem_cons_of_mem _ (hsub pe h)
          · rw [List.mem_singleton.mp h]
            exact List.mem_cons_self _ _
        · rw [← List.append_assoc]
          exact nodup_snoc_hash H (prev ++ acc) _ seen hsub hnd h2
    obtain ⟨ha, hb, hc⟩ := hstep
    obtain ⟨ra, rb, rc⟩ := ih _ _ _ prev ha hb
    exact ⟨ra, rb, fun x hx => rc x (hc x hx)⟩

theorem parse_feed_nodup_inv (H : String → String) (pd : String → Option Nat)
    (clock : Nat → Nat) (fetch : String → Option (List RawEntry))
    (lf : List (String × Nat)) (url : String) :
    ∀ seen k prev,
      (∀ pe ∈ prev, generate_entry_hash H pe ∈ seen) →
      (prev.map (generate_entry_hash H)).Nodup →
      (∀ pe ∈ prev ++ (parse_feed H pd clock fetch lf url seen k).1,
          generate_entry_hash H pe ∈
            (parse_feed H pd clock fetch lf url seen k).2.1) ∧
      ((prev ++ (parse_feed H pd clock fetch lf url seen k).1).map
          (generate_entry_hash H)).Nodup ∧
      (∀ x ∈ seen, x ∈ (parse_feed H pd clock fetch lf url seen k).2.1) := by
  intro seen k prev hsub hnd
  rw [parse_feed]
  cases hf : fetch url with
  | none =>
    refine ⟨?_, ?_, fun x hx => hx⟩
    · intro pe hpe
      exact hsub pe (by simpa using hpe)
    · simpa using hnd
  | some rs =>
    have h0 : ∀ pe ∈ prev ++ ([] : List ParsedEntry),
        generate_entry_hash H pe ∈ seen := by
      intro pe hpe
      exact hsub pe (by simpa using hpe)
    have h1 : ((prev ++ ([] : List ParsedEntry)).map
        (generate_entry_hash H)).Nodup := by
      simpa using hnd
    exact processEntries_nodup_inv H pd clock url _ rs seen k [] prev h0 h1

theorem collect_nodup_inv (H : String → String) (pd : String → Option Nat)
    (clock : Nat → Nat) (fetch : String → Option (List RawEntry))
    (lf : List (String × Nat)) (urls : List String) :
    ∀ seen k prev,
      (∀ pe ∈ prev, generate_entry_hash H pe ∈ seen) →
      (prev.map (generate_entry_hash H)).Nodup →
      ((prev ++
          keptAll (collect_all_feeds H pd clock fetch lf urls seen k).1).map
          (generate_entry_hash H)).Nodup := by
  induction urls with
  | nil =>
    intro seen k prev hsub hnd
    rw [collect_all_feeds]
    simpa [keptAll] using hnd
  | cons url urls ih =>
    intro seen k prev hsub hnd
    rw [collect_all_feeds]
    obtain ⟨pa, pb, pc⟩ :=
      parse_feed_nodup_inv H pd clock fetch lf url seen k prev hsub hnd
    have := ih (parse_feed H pd clock fetch lf url seen k).2.1
      (parse_feed H pd clock fetch lf url seen k).2.2
      (prev ++ (parse_feed H pd clock fetch lf url seen k).1) pa pb
    rw [keptAll_cons, ← List.append_assoc]
    exact this

theorem str_cancel_1 {a1 a2 b c d : String}
    (h : a1 ++ b ++ c ++ d = a2 ++ b ++ c ++ d) : a1 = a2 := by
  have hd := congrArg String.data h
  simp only [String.data_append] at hd
  exact stringDataInj
    (List.append_cancel_right
      (List.append_cancel_right (List.append_cancel_right hd)))

theorem str_cancel_2 {a b1 b2 c d : String}
    (h : a ++ b1 ++ c ++ d = a ++ b2 ++ c ++ d) : b1 = b2 := by
  have hd := congrArg String.data h
  simp only [String.data_append] at hd
  exact stringDataInj
    (List.append_cancel_left
      (List.append_cancel_right (List.append_cancel_right hd)))

theorem str_cancel_3 {a b c1 c2 d : String}
    (h : a ++ b ++ c1 ++ d = a ++ b ++ c2 ++ d) : c1 = c2 := by
  have hd := congrArg String.data h
  simp only [String.data_append] at hd
  exact stringDataInj
    (List.append_cancel_left (List.append_cancel_right hd))

theorem str_cancel_4 {a b c d1 d2 : String}
    (h : a ++ b ++ c ++ d1 = a ++ b ++ c ++ d2) : d1 = d2 := by
  have hd := congrArg String.data h
  simp only [String.data_append] at hd
  exact stringDataInj (List.append_cancel_left hd)

theorem run_feeds_def (H : String → String) (pd : String → Option Nat)
    (clock : Nat → Nat) (fetch : String → Option (List RawEntry))
    (urls : List String) (initState : Option (List (String × Nat)))
    (k0 : Nat) :
    (run H pd clock fetch urls initState k0).feeds =
      (collect_all_feeds H pd clock fetch
        (load_last_fetch_times initState urls) urls [] (k0 + 1)).1 := rfl

theorem run_files_def (H : String → String) (pd : String → Option Nat)
    (clock : Nat → Nat) (fetch : String → Option (List RawEntry))
    (urls : List String) (initState : Option (List (String × Nat)))
    (k0 : Nat) :
    (run H pd clock fetch urls initState k0).files =
      (save_to_json clock
        (collect_all_feeds H pd clock fetch
          (load_last_fetch_times initState urls) urls [] (k0 + 1)).1
        (collect_all_feeds H pd clock fetch
          (load_last_fetch_times initState urls) urls [] (k0 + 1)).2.2).1 := rfl

theorem run_savedState_def (H : String → String) (pd : String → Option Nat)
    (clock : Nat → Nat) (fetch : String → Option (List RawEntry))
    (urls : List String) (initState : Option (List (String × Nat)))
    (k0 : Nat) :
    (run H pd clock fetch urls initState k0).savedState =
      (save_state clock urls
        (save_to_json clock
          (collect_all_feeds H pd clock fetch
            (load_last_fetch_times initState urls) urls [] (k0 + 1)).1
          (collect_all_feeds H pd clock fetch
            (load_last_fetch_times initState urls) urls [] (k0 + 1)).2.2).2).1 :=
  rfl

theorem run_startTime_def (H : String → String) (pd : String → Option Nat)
    (clock : Nat → Nat) (fetch : String → Option (List RawEntry))
    (urls : List String) (initState : Option (List (String × Nat)))
    (k0 : Nat) :
    (run H pd clock fetch urls initState k0).startTime = clock k0 := rfl

/-- Witness scenario: one configured source URL. -/
def wUrl : String := "http://h/f"

/-- Witness scenario: a raw entry with a parseable published date. -/
def wRaw : RawEntry :=
  { title := some "T", link := none, published := some "P",
    updated := none, summary := some "S" }

/-- Witness scenario: date-parsing oracle that parses `"P"` to instant 5. -/
def wPd : String → Option Nat := fun s => if s = "P" then some 5 else none

/-- Witness scenario: a strictly advancing wall clock. -/
def wClock : Nat → Nat := fun j => 100 + j

theorem wClock_mono : Monotone wClock := fun a b h => by
  simp only [wClock]
  omega

/-- Witness scenario: every fetch succeeds with the single entry `wRaw`. -/
def wFetch : String → Option (List RawEntry) := fun _ => some [wRaw]

/-- Witness scenario: every fetch fails after exhausting its retries. -/
def wFetchFail : String → Option (List RawEntry) := fun _ => none

/-- Witness scenario: the entry the pipeline keeps for `wRaw` in a run
started at clock index 0. -/
def wPe : ParsedEntry :=
  { title := "T", link := "", published := isoformat 5, summary := "S",
    source := "h", fetched_at := isoformat 101 }

/-- C1: for every configured source and every entry kept in a run, the
entry's normalized published instant is strictly greater than that source's
loaded watermark; entries at or below the watermark never appear in the
run's output. -/
theorem watermark_filter_excludes_old (H : String → String)
    (pd : String → Option Nat) (clock : Nat → Nat)
    (fetch : String → Option (List RawEntry)) (urls : List String)
    (initState : Option (List (String × Nat))) (k0 : Nat)
    (url : String) (es : List ParsedEntry) (pe : ParsedEntry)
    (hm : (url, es) ∈ (run H pd clock fetch urls initState k0).feeds)
    (hpe : pe ∈ es) :
    ∃ t, (lookupStr url (load_last_fetch_times initState urls)).getD 0 < t ∧
      pe.published = isoformat t := by
  rw [run_feeds_def] at hm
  exact collect_mem H pd clock fetch _ urls _ _ url es pe hm hpe

/-- Witness for C1 at a concrete run: the single kept entry has normalized
published instant 5, strictly above the epoch watermark 0. -/
theorem watermark_filter_excludes_old_witness :
    (wUrl, [wPe]) ∈ (run id wPd wClock wFetch [wUrl] none 0).feeds ∧
    wPe ∈ [wPe] ∧
    ∃ t, (lookupStr wUrl (load_last_fetch_times none [wUrl])).getD 0 < t ∧
      wPe.published = isoformat t :=
  ⟨by decide, by decide,
    watermark_filter_excludes_old id wPd wClock wFetch [wUrl] none 0 wUrl
      [wPe] wPe (by decide) (by decide)⟩

theorem load_last_fetch_times_some (st : List (String × Nat))
    (urls : List String) :
    load_last_fetch_times (some st) urls =
      urls.map (fun u => (u, (lookupStr u st).getD 0)) := rfl

/-- C2: with a monotone wall clock, after a run completes and its state save
succeeds, reloading the watermark store yields, for every configured source
(including sources whose fetch failed), an instant at or after the run's
start time. -/
theorem watermark_persist_ge_start (H : String → String)
    (pd : String → Option Nat) (clock : Nat → Nat)
    (fetch : String → Option (List RawEntry)) (urls : List String)
    (initState : Option (List (String × Nat))) (k0 : Nat) (u : String)
    (hmono : Monotone clock) (hu : u ∈ urls) :
    ∃ v, lookupStr u (load_last_fetch_times
        (some (run H pd clock fetch urls initState k0).savedState) urls) =
      some v ∧
      (run H pd clock fetch urls initState k0).startTime ≤ v := by
  rw [run_savedState_def, run_startTime_def]
  obtain ⟨i, hk, -, hl⟩ := save_state_lookup clock urls
    ((save_to_json clock
      (collect_all_feeds H pd clock fetch
        (load_last_fetch_times initState urls) urls [] (k0 + 1)).1
      (collect_all_feeds H pd clock fetch
        (load_last_fetch_times initState urls) urls [] (k0 + 1)).2.2).2) u hu
  rw [load_last_fetch_times_some, lookupStr_map_self _ urls u hu]
  refine ⟨_, rfl, ?_⟩
  rw [hl, Option.getD_some]
  refine hmono (le_trans (Nat.le_succ k0) ?_)
  refine le_trans
    (collect_k_le H pd clock fetch (load_last_fetch_times initState urls)
      urls [] (k0 + 1)) ?_
  exact le_trans
    (save_to_json_k_le clock
      (collect_all_feeds H pd clock fetch
        (load_last_fetch_times initState urls) urls [] (k0 + 1)).1
      (collect_all_feeds H pd clock fetch
        (load_last_fetch_times initState urls) urls [] (k0 + 1)).2.2) hk

/-- Witness for C2 at a concrete run whose single source's fetch fails:
reloading the saved state still yields an instant at or after the run's
start time. -/
theorem watermark_persist_ge_start_witness :
    Monotone wClock ∧ "u" ∈ ["u"] ∧
    ∃ v, lookupStr "u" (load_last_fetch_times
        (some (run id wPd wClock wFetchFail ["u"] none 0).savedState)
        ["u"]) = some v ∧
      (run id wPd wClock wFetchFail ["u"] none 0).startTime ≤ v :=
  ⟨wClock_mono, by decide,
    watermark_persist_ge_start id wPd wClock wFetchFail ["u"] none 0 "u"
      wClock_mono (by decide)⟩

/-- C3 counterexample: the state save reads the clock once per source inside
the dict comprehension, so with a clock that advances between the two reads
the two configured sources are persisted with two different instants — there
is no single shared save-time instant. -/
theorem save_state_shared_instant_cx :
    ¬ ∃ t, ∀ u ∈ (["a", "b"] : List String),
        lookupStr u (save_state (fun j => j) ["a", "b"] 0).1 = some t := by
  rintro ⟨t, hall⟩
  have ha := hall "a" (by simp)
  have hb := hall "b" (by simp)
  rw [show lookupStr "a" (save_state (fun j => j) ["a", "b"] 0).1 = some 0
    from by decide] at ha
  rw [show lookupStr "b" (save_state (fun j => j) ["a", "b"] 0).1 = some 1
    from by decide] at hb
  rw [← hb] at ha
  exact absurd ha (by decide)

/-- C3 amended: the state save writes, for every configured source, a
save-time "now" instant read once per source in list order (the clock
readings at consecutive indices starting at the save's start index); the
sources need not share one single instant. -/
theorem save_state_per_source_instant (clock : Nat → Nat)
    (urls : List String) (k : Nat) (u : String) (hu : u ∈ urls) :
    ∃ i, k ≤ i ∧ i < k + urls.length ∧
      lookupStr u (save_state clock urls k).1 = some (clock i) :=
  save_state_lookup clock urls k u hu

/-- Witness for the amended C3 at a concrete save of two sources. -/
theorem save_state_per_source_instant_witness :
    "a" ∈ (["a", "b"] : List String) ∧
    ∃ i, 0 ≤ i ∧ i < 0 + (["a", "b"] : List String).length ∧
      lookupStr "a" (save_state (fun j => j) ["a", "b"] 0).1 =
        some ((fun j => j) i) :=
  ⟨by decide,
    save_state_per_source_instant (fun j => j) ["a", "b"] 0 "a" (by decide)⟩

/-- C4: within a single run, no two kept entries — across all sources —
share a fingerprint: the list of digests of all kept entries has no
duplicates, for any digest function. -/
theorem run_kept_fingerprints_nodup (H : String → String)
    (pd : String → Option Nat) (clock : Nat → Nat)
    (fetch : String → Option (List RawEntry)) (urls : List String)
    (initState : Option (List (String × Nat))) (k0 : Nat) :
    ((keptAll (run H pd clock fetch urls initState k0).feeds).map
        (generate_entry_hash H)).Nodup := by
  rw [run_feeds_def]
  have h := collect_nodup_inv H pd clock fetch
    (load_last_fetch_times initState urls) urls [] (k0 + 1) []
    (fun pe hpe => absurd hpe (List.not_mem_nil pe)) (by simp)
  simpa using h

/-- Following the claim's words (C5): a fingerprint computed from the
concatenation of the entry's title, link, published date string as written
in the feed (the raw field), and summary. -/
def specRawFingerprint (H : String → String) (r : RawEntry) : String :=
  H ((r.title.getD "") ++ (r.link.getD "") ++ pubStrOf r ++ (r.summary.getD ""))

/-- C5 scenario: a raw entry whose written published string `"P"` differs
from the ISO rendering of its parsed instant. -/
def rawC5 : RawEntry :=
  { title := some "T", link := some "L", published := some "P",
    updated := none, summary := some "S" }

/-- C5 scenario: fetch oracle returning exactly `rawC5`. -/
def fetchC5 : String → Option (List RawEntry) := fun _ => some [rawC5]

/-- C5 counterexample: the pipeline hashes the parsed entry, whose
`published` field holds the normalized ISO string, so the fingerprint of the
single kept entry differs from the hash computed over the raw published
string as the claim states it. -/
theorem fingerprint_raw_published_cx :
    (parse_feed id wPd wClock fetchC5 [("u", 0)] "u" [] 0).1.length = 1 ∧
    (parse_feed id wPd wClock fetchC5 [("u", 0)] "u" [] 0).1.map
        (generate_entry_hash id) ≠ [specRawFingerprint id rawC5] := by
  constructor
  · decide
  · decide

/-- C5 amended: for every kept entry, the fingerprint is the digest of the
concatenation of the entry's title, link, the normalized published instant's
ISO string (not the raw feed string), and summary. -/
theorem fingerprint_uses_normalized_published (H : String → String)
    (pd : String → Option Nat) (clock : Nat → Nat)
    (fetch : String → Option (List RawEntry)) (lf : List (String × Nat))
    (url : String) (seen : List String) (k : Nat) (pe : ParsedEntry)
    (hpe : pe ∈ (parse_feed H pd clock fetch lf url seen k).1) :
    ∃ t, pe.published = isoformat t ∧
      generate_entry_hash H pe =
        H (pe.title ++ pe.link ++ isoformat t ++ pe.summary) := by
  obtain ⟨t, -, hpub⟩ := parse_feed_mem H pd clock fetch lf url seen k pe hpe
  exact ⟨t, hpub, by rw [generate_entry_hash, hpub]⟩

/-- Witness for the amended C5 at a concrete kept entry. -/
theorem fingerprint_uses_normalized_published_witness :
    wPe ∈ (parse_feed id wPd wClock wFetch [(wUrl, 0)] wUrl [] 1).1 ∧
    ∃ t, wPe.published = isoformat t ∧
      generate_entry_hash id wPe =
        id (wPe.title ++ wPe.link ++ isoformat t ++ wPe.summary) :=
  ⟨by decide,
    fingerprint_uses_normalized_published id wPd wClock wFetch [(wUrl, 0)]
      wUrl [] 1 wPe (by decide)⟩

/-- C6: fingerprinting is deterministic — equal (title, link, published,
summary) tuples give equal digests regardless of other fields — and, for an
injective (collision-free) digest function, any change to exactly one of the
four fields changes the fingerprint. -/
theorem fingerprint_deterministic_sensitive (H : String → String)
    (e1 e2 : ParsedEntry) :
    ((e1.title, e1.link, e1.published, e1.summary) =
        (e2.title, e2.link, e2.published, e2.summary) →
      generate_entry_hash H e1 = generate_entry_hash H e2) ∧
    (Function.Injective H →
      ((e1.title ≠ e2.title ∧ e1.link = e2.link ∧
          e1.published = e2.published ∧ e1.summary = e2.summary) ∨
        (e1.title = e2.title ∧ e1.link ≠ e2.link ∧
          e1.published = e2.published ∧ e1.summary = e2.summary) ∨
        (e1.title = e2.title ∧ e1.link = e2.link ∧
          e1.published ≠ e2.published ∧ e1.summary = e2.summary) ∨
        (e1.title = e2.title ∧ e1.link = e2.link ∧
          e1.published = e2.published ∧ e1.summary ≠ e2.summary)) →
      generate_entry_hash H e1 ≠ generate_entry_hash H e2) := by
  constructor
  · intro h
    simp only [Prod.mk.injEq] at h
    obtain ⟨h1, h2, h3, h4⟩ := h
    rw [generate_entry_hash, generate_entry_hash, h1, h2, h3, h4]
  · intro hinj hdiff hEq
    rw [generate_entry_hash, generate_entry_hash] at hEq
    have hcat := hinj hEq
    rcases hdiff with ⟨hne, hl, hp, hs⟩ | ⟨ht, hne, hp, hs⟩ |
      ⟨ht, hl, hne, hs⟩ | ⟨ht, hl, hp, hne⟩
    · rw [hl, hp, hs] at hcat
      exact hne (str_cancel_1 hcat)
    · rw [ht, hp, hs] at hcat
      exact hne (str_cancel_2 hcat)
    · rw [ht, hl, hs] at hcat
      exact hne (str_cancel_3 hcat)
    · rw [ht, hl, hp] at hcat
      exact hne (str_cancel_4 hcat)

/-- Witness for C6: two concrete entries differing only in title get
different fingerprints under the injective digest `id`. -/
theorem fingerprint_deterministic_sensitive_witness :
    Function.Injective (id : String → String) ∧
    generate_entry_hash id
        { title := "A", link := "l", published := "p", summary := "s",
          source := "", fetched_at := "" } ≠
      generate_entry_hash id
        { title := "B", link := "l", published := "p", summary := "s",
          source := "", fetched_at := "" } :=
  ⟨Function.injective_id,
    (fingerprint_deterministic_sensitive id
        { title := "A", link := "l", published := "p", summary := "s",
          source := "", fetched_at := "" }
        { title := "B", link := "l", published := "p", summary := "s",
          source := "", fetched_at := "" }).2
      Function.injective_id (Or.inl ⟨by decide, rfl, rfl, rfl⟩)⟩

/-- C7 scenario: a raw entry with neither a published nor an updated field. -/
def rawND : RawEntry :=
  { title := some "T", link := none, published := none,
    updated := none, summary := none }

theorem processEntries_append (H : String → String)
    (pd : String → Option Nat) (clock : Nat → Nat) (url : String) (wm : Nat)
    (rs1 rs2 : List RawEntry) :
    ∀ seen k acc,
      processEntries H pd clock url wm (rs1 ++ rs2) seen k acc =
        processEntries H pd clock url wm rs2
          (processEntries H pd clock url wm rs1 seen k acc).1
          (processEntries H pd clock url wm rs1 seen k acc).2.1
          (processEntries H pd clock url wm rs1 seen k acc).2.2 := by
  induction rs1 with
  | nil => intro seen k acc; rw [List.nil_append, processEntries]
  | cons r rs1 ih =>
    intro seen k acc
    simp only [List.cons_append, processEntries]
    exact ih _ _ _

/-- C7: per entry, with no hypothesis on the rest of the feed: a raw entry
that lacks both date fields (or carries an unparseable date string) is
normalized to the current clock instant — whatever the loop state, it is
either excluded (watermark or dedup) or kept with `published` equal to the
ISO rendering of the clock reading taken at its normalization, never empty
and never an exception; and the entry loop over any feed `rs1 ++ r :: rs2`
reaches `r` exactly by applying this loop body to the state left by `rs1`,
so the statement covers a dateless entry inside any mixed feed. -/
theorem dateless_entry_published_now (H : String → String)
    (pd : String → Option Nat) (clock : Nat → Nat) (url : String) (wm : Nat)
    (r : RawEntry) (seen : List String) (k : Nat) (acc : List ParsedEntry)
    (rs1 rs2 : List RawEntry)
    (hr : pubStrOf r = "" ∨ pd (pubStrOf r) = none) :
    ((processEntry H pd clock url wm r seen k acc).2.2 = acc ∨
      (processEntry H pd clock url wm r seen k acc).2.2 =
        acc ++ [{ title := r.title.getD "", link := r.link.getD "",
                  published := isoformat (clock k),
                  summary := r.summary.getD "",
                  source := netloc url,
                  fetched_at := isoformat (clock (k + 1)) }]) ∧
    processEntries H pd clock url wm (rs1 ++ r :: rs2) seen k acc =
      processEntries H pd clock url wm (r :: rs2)
        (processEntries H pd clock url wm rs1 seen k acc).1
        (processEntries H pd clock url wm rs1 seen k acc).2.1
        (processEntries H pd clock url wm rs1 seen k acc).2.2 := by
  constructor
  · have hnd : (normalizeDate pd clock (pubStrOf r) k).1 = clock k ∧
        (normalizeDate pd clock (pubStrOf r) k).2 = k + 1 := by
      rcases normalizeDate_k pd clock (pubStrOf r) k with ⟨-, h1, h2⟩ |
        ⟨hs, hpd, -⟩
      · exact ⟨h1, h2⟩
      · rcases hr with h | h
        · exact absurd h hs
        · rw [h] at hpd
          exact absurd hpd (by simp)
    obtain ⟨hclk, hk2⟩ := hnd
    simp only [processEntry]
    split_ifs with h1 h2
    · exact Or.inl rfl
    · exact Or.inl rfl
    · rw [hclk, hk2]
      exact Or.inr rfl
  · exact processEntries_append H pd clock url wm rs1 (r :: rs2) seen k acc

/-- Witness for C7 at a concrete dateless entry placed after a dated entry
in a mixed feed. -/
theorem dateless_entry_published_now_witness :
    (pubStrOf rawND = "" ∨ wPd (pubStrOf rawND) = none) ∧
    (((processEntry id wPd wClock "u" 0 rawND [] 0 []).2.2 = [] ∨
      (processEntry id wPd wClock "u" 0 rawND [] 0 []).2.2 =
        [] ++ [{ title := rawND.title.getD "", link := rawND.link.getD "",
                 published := isoformat (wClock 0),
                 summary := rawND.summary.getD "",
                 source := netloc "u",
                 fetched_at := isoformat (wClock (0 + 1)) }]) ∧
      processEntries id wPd wClock "u" 0 ([wRaw] ++ rawND :: []) [] 0 [] =
        processEntries id wPd wClock "u" 0 (rawND :: [])
          (processEntries id wPd wClock "u" 0 [wRaw] [] 0 []).1
          (processEntries id wPd wClock "u" 0 [wRaw] [] 0 []).2.1
          (processEntries id wPd wClock "u" 0 [wRaw] [] 0 []).2.2) :=
  ⟨Or.inl rfl,
    dateless_entry_published_now id wPd wClock "u" 0 rawND [] 0 [] [wRaw] []
      (Or.inl rfl)⟩

/-- C8: every written output file, split on `",\n"` boundaries after
stripping the final newline and with each segment parsed as a standalone
JSON object, yields exactly the entries kept for its source in original
order; and every source with kept entries gets a file, while sources with
zero kept entries produce none. -/
theorem output_roundtrip (H : String → String) (pd : String → Option Nat)
    (clock : Nat → Nat) (fetch : String → Option (List RawEntry))
    (urls : List String) (initState : Option (List (String × Nat)))
    (k0 : Nat) :
    (∀ url fn c,
      (url, fn, c) ∈ (run H pd clock fetch urls initState k0).files →
      ∃ es, (url, es) ∈ (run H pd clock fetch urls initState k0).feeds ∧
        es ≠ [] ∧
        (splitCommaNl (stripFinalNewline c)).map parseEntryJson =
          es.map some) ∧
    (∀ url es, (url, es) ∈ (run H pd clock fetch urls initState k0).feeds →
      es ≠ [] →
      ∃ fn c, (url, fn, c) ∈ (run H pd clock fetch urls initState k0).files ∧
        c = dumpEntries es) := by
  constructor
  · intro url fn c hm
    rw [run_files_def] at hm
    obtain ⟨es, h1, h2, h3⟩ := save_to_json_mem clock _ _ url fn c hm
    refine ⟨es, ?_, h2, ?_⟩
    · rw [run_feeds_def]
      exact h1
    · rw [h3]
      exact roundTrip_dumpEntries es h2
  · intro url es hm hne
    rw [run_feeds_def] at hm
    rw [run_files_def]
    exact save_to_json_covers clock _ _ url es hm hne

/-- Witness for C8 at a concrete run writing one file with one entry. -/
theorem output_roundtrip_witness :
    (wUrl, fileNameFor wUrl 102, dumpEntries [wPe]) ∈
      (run id wPd wClock wFetch [wUrl] none 0).files ∧
    ∃ es, (wUrl, es) ∈ (run id wPd wClock wFetch [wUrl] none 0).feeds ∧
      es ≠ [] ∧
      (splitCommaNl (stripFinalNewline (dumpEntries [wPe]))).map
          parseEntryJson = es.map some :=
  ⟨by decide,
    (output_roundtrip id wPd wClock wFetch [wUrl] none 0).1 wUrl
      (fileNameFor wUrl 102) (dumpEntries [wPe]) (by decide)⟩

/-- C9: a source whose fetch fails after exhausting retries yields zero
entries, while every configured source is still processed, every source with
kept entries still gets its file written, and the state save still covers
every configured source — one failing source never aborts the batch. -/
theorem failed_fetch_isolation (H : String → String)
    (pd : String → Option Nat) (clock : Nat → Nat)
    (fetch : String → Option (List RawEntry)) (urls : List String)
    (initState : Option (List (String × Nat))) (k0 : Nat) (u : String)
    (hu : u ∈ urls) (hf : fetch u = none) :
    (∀ es, (u, es) ∈ (run H pd clock fetch urls initState k0).feeds →
      es = []) ∧
    (∀ v, v ∈ urls →
      ∃ es, (v, es) ∈ (run H pd clock fetch urls initState k0).feeds) ∧
    (∀ v es, (v, es) ∈ (run H pd clock fetch urls initState k0).feeds →
      es ≠ [] →
      ∃ fn c, (v, fn, c) ∈ (run H pd clock fetch urls initState k0).files ∧
        c = dumpEntries es) ∧
    (∀ v, v ∈ urls →
      ∃ i, lookupStr v (run H pd clock fetch urls initState k0).savedState =
        some (clock i)) := by
  refine ⟨?_, ?_, ?_, ?_⟩
  · intro es hm
    rw [run_feeds_def] at hm
    exact collect_failed H pd clock fetch _ urls _ _ u es hm hf
  · intro v hv
    rw [run_feeds_def]
    exact collect_covers H pd clock fetch _ urls _ _ v hv
  · intro v es hm hne
    rw [run_feeds_def] at hm
    rw [run_files_def]
    exact save_to_json_covers clock _ _ v es hm hne
  · intro v hv
    rw [run_savedState_def]
    obtain ⟨i, -, -, hl⟩ := save_state_lookup clock urls
      ((save_to_json clock
        (collect_all_feeds H pd clock fetch
          (load_last_fetch_times initState urls) urls [] (k0 + 1)).1
        (collect_all_feeds H pd clock fetch
          (load_last_fetch_times initState urls) urls [] (k0 + 1)).2.2).2)
      v hv
    exact ⟨i, hl⟩

/-- C9 scenario: a source whose fetch always fails. -/
def wBad : String := "http://bad/x"

/-- C9 scenario: two configured sources, the failing one first. -/
def wUrls2 : List String := [wBad, wUrl]

/-- C9 scenario: fetch oracle failing on `wBad` and succeeding elsewhere. -/
def wFetch2 : String → Option (List RawEntry) :=
  fun u => if u = wBad then none else some [wRaw]

/-- Witness for C9: with the first of two sources failing, the second source
still has its entries collected. -/
theorem failed_fetch_isolation_witness :
    wBad ∈ wUrls2 ∧ wFetch2 wBad = none ∧
    ∃ es, (wUrl, es) ∈ (run id wPd wClock wFetch2 wUrls2 none 0).feeds :=
  ⟨by decide, by decide,
    (failed_fetch_isolation id wPd wClock wFetch2 wUrls2 none 0 wBad
      (by decide) (by decide)).2.1 wUrl (by decide)⟩

/-- C10: with the configured threshold `DAYS_OLD = 0`, the retention sweep's
cutoff equals the sweep's own start time, so every regular file whose
modification time precedes the sweep has its deletion attempted — the sweep
removes all previously written output files, not only aged ones. -/
theorem clean_feeds_deletes_all (now : Int) (files : List FileInfo)
    (f : FileInfo) (hf : f ∈ files) (hreg : f.isFile = true)
    (hmt : f.mtime < now) :
    cutoffOf now DAYS_OLD = now ∧
    f.name ∈ clean_old_files now DAYS_OLD files := by
  constructor
  · rw [cutoffOf, DAYS_OLD]
    ring
  · rw [clean_old_files]
    refine List.mem_map.mpr ⟨f, List.mem_filter.mpr ⟨hf, ?_⟩, rfl⟩
    rw [hreg]
    simp only [Bool.true_and, decide_eq_true_eq]
    rw [cutoffOf, DAYS_OLD]
    omega

/-- C10 scenario: a regular file written strictly before the sweep. -/
def wFile : FileInfo := { name := "old.json", isFile := true, mtime := -1 }

/-- Witness for C10 at a concrete sweep over one old file. -/
theorem clean_feeds_deletes_all_witness :
    wFile ∈ [wFile] ∧ wFile.isFile = true ∧ wFile.mtime < 0 ∧
    (cutoffOf 0 DAYS_OLD = 0 ∧
      wFile.name ∈ clean_old_files 0 DAYS_OLD [wFile]) :=
  ⟨by decide, rfl, by decide,
    clean_feeds_deletes_all 0 [wFile] wFile (by decide) rfl (by decide)⟩
